import Mathlib

/-!
Verification of the `dvf-blockchain-go` ledger/consensus core.

The Go source (src/blockchain.go and the HTTP server file) is shallowly
embedded: Go slices become `List`, Go `int` becomes `Int`, Go strings become
`String`, SHA-256 and hex encoding are implemented executably on byte lists
(`Nat` values below 256), and the unbounded proof-of-work loop is given
explicit fuel.  Go's `map[string]bool` peer set is iterated in an arbitrary
order; that order is passed to `ResolveConflicts` as an explicit list.
-/

namespace DVF

/-! ## 32-bit words and SHA-256 (crypto/sha256) -/

/-- Truncate to a 32-bit word. -/
def w32 (n : Nat) : Nat := n % 4294967296

/-- Right rotation of a 32-bit word. -/
def rotr (n x : Nat) : Nat := w32 (x >>> n ||| x <<< (32 - n))

def bsig0 (x : Nat) : Nat := rotr 2 x ^^^ rotr 13 x ^^^ rotr 22 x

def bsig1 (x : Nat) : Nat := rotr 6 x ^^^ rotr 11 x ^^^ rotr 25 x

def ssig0 (x : Nat) : Nat := rotr 7 x ^^^ rotr 18 x ^^^ (x >>> 3)

def ssig1 (x : Nat) : Nat := rotr 17 x ^^^ rotr 19 x ^^^ (x >>> 10)

/-- The 64 SHA-256 round constants. -/
def K256 : List Nat :=
  [1116352408, 1899447441, 3049323471, 3921009573, 961987163,
   1508970993, 2453635748, 2870763221, 3624381080, 310598401,
   607225278, 1426881987, 1925078388, 2162078206, 2614888103,
   3248222580, 3835390401, 4022224774, 264347078, 604807628,
   770255983, 1249150122, 1555081692, 1996064986, 2554220882,
   2821834349, 2952996808, 3210313671, 3336571891, 3584528711,
   113926993, 338241895, 666307205, 773529912, 1294757372,
   1396182291, 1695183700, 1986661051, 2177026350, 2456956037,
   2730485921, 2820302411, 3259730800, 3345764771, 3516065817,
   3600352804, 4094571909, 275423344, 430227734, 506948616,
   659060556, 883997877, 958139571, 1322822218, 1537002063,
   1747873779, 1955562222, 2024104815, 2227730452, 2361852424,
   2428436474, 2756734187, 3204031479, 3329325298]

/-- The eight 32-bit working variables of the SHA-256 compression. -/
structure Hash8 where
  a : Nat
  b : Nat
  c : Nat
  d : Nat
  e : Nat
  f : Nat
  g : Nat
  h : Nat

/-- SHA-256 initial hash value. -/
def iv256 : Hash8 :=
  ⟨1779033703, 3144134277, 1013904242, 2773480762, 1359893119, 2600822924, 528734635, 1541459225⟩

/-- Group a byte list into big-endian 32-bit words. -/
def bytesToWords : List Nat → List Nat
  | b0 :: b1 :: b2 :: b3 :: rest =>
      (b0 * 16777216 + b1 * 65536 + b2 * 256 + b3) :: bytesToWords rest
  | _ => []

/-- Extend the 16-word message schedule by `k` further words. -/
def extendSched : Nat → List Nat → List Nat
  | 0, ws => ws
  | k + 1, ws =>
      let n := ws.length
      extendSched k (ws ++ [w32 (ssig1 (ws.getD (n - 2) 0) + ws.getD (n - 7) 0 +
        ssig0 (ws.getD (n - 15) 0) + ws.getD (n - 16) 0)])

/-- One SHA-256 compression round; `kw` pairs a round constant with a
schedule word. -/
def round256 (s : Hash8) (kw : Nat × Nat) : Hash8 :=
  let t1 := w32 (s.h + bsig1 s.e + ((s.e &&& s.f) ^^^ ((s.e ^^^ 4294967295) &&& s.g)) +
    kw.1 + kw.2)
  let t2 := w32 (bsig0 s.a + ((s.a &&& s.b) ^^^ (s.a &&& s.c) ^^^ (s.b &&& s.c)))
  ⟨w32 (t1 + t2), s.a, s.b, s.c, w32 (s.d + t1), s.e, s.f, s.g⟩

/-- Compress one 64-byte chunk into the running state. -/
def processChunk (st : Hash8) (chunk : List Nat) : Hash8 :=
  let ws := extendSched 48 (bytesToWords chunk)
  let t := (K256.zip ws).foldl round256 st
  ⟨w32 (st.a + t.a), w32 (st.b + t.b), w32 (st.c + t.c), w32 (st.d + t.d),
   w32 (st.e + t.e), w32 (st.f + t.f), w32 (st.g + t.g), w32 (st.h + t.h)⟩

/-- `k` big-endian bytes of `n`. -/
def natToBytesBE : Nat → Nat → List Nat
  | 0, _ => []
  | k + 1, n => natToBytesBE k (n / 256) ++ [n % 256]

/-- SHA-256 padding: append `0x80`, zeros, and the 64-bit bit length. -/
def padMsg (msg : List Nat) : List Nat :=
  let len := msg.length
  let zeros := (120 - (len + 1) % 64) % 64
  msg ++ 128 :: (List.replicate zeros 0 ++ natToBytesBE 8 (len * 8))

/-- Split into `k` chunks of 64 bytes. -/
def chunks64 : Nat → List Nat → List (List Nat)
  | 0, _ => []
  | k + 1, l => l.take 64 :: chunks64 k (l.drop 64)

/-- Big-endian bytes of one 32-bit word. -/
def wordBytes (w : Nat) : List Nat :=
  [w / 16777216 % 256, w / 65536 % 256, w / 256 % 256, w % 256]

/-- SHA-256 of a byte list, as a list of 32 bytes. -/
def sha256 (msg : List Nat) : List Nat :=
  let padded := padMsg msg
  let t := (chunks64 (padded.length / 64) padded).foldl processChunk iv256
  wordBytes t.a ++ wordBytes t.b ++ wordBytes t.c ++ wordBytes t.d ++
  wordBytes t.e ++ wordBytes t.f ++ wordBytes t.g ++ wordBytes t.h

/-! ## Hex encoding (encoding/hex) and UTF-8 bytes of a string -/

/-- Lowercase hexadecimal digit for a nibble. -/
def hexDigit (n : Nat) : Char :=
  if n < 10 then Char.ofNat (48 + n) else Char.ofNat (87 + n)

/-- Two lowercase hex characters per byte. -/
def hexChars : List Nat → List Char
  | [] => []
  | b :: rest => hexDigit (b / 16) :: hexDigit (b % 16) :: hexChars rest

/-- `hex.EncodeToString`: lowercase hex string of a byte list. -/
def hexEncode (bs : List Nat) : String := ⟨hexChars bs⟩

/-- UTF-8 encoding of one character. -/
def utf8Char (c : Char) : List Nat :=
  let n := c.toNat
  if n < 128 then [n]
  else if n < 2048 then [192 + n / 64, 128 + n % 64]
  else if n < 65536 then [224 + n / 4096, 128 + n / 64 % 64, 128 + n % 64]
  else [240 + n / 262144, 128 + n / 4096 % 64, 128 + n / 64 % 64, 128 + n % 64]

/-- UTF-8 bytes of a string (Go `[]byte(s)`). -/
def utf8Bytes (s : String) : List Nat :=
  s.data.foldr (fun c acc => utf8Char c ++ acc) []

/-! ## Data model (blockchain.go) -/

structure Transaction where
  sender : String
  recipient : String
  amount : Int
deriving DecidableEq

structure Block where
  index : Int
  timestamp : String
  transactions : List Transaction
  proof : Int
  previousHash : String
deriving DecidableEq

/-- `Blockchain` state: chain, pending transaction pool, registered nodes.
Go's `map[string]bool` node set is modelled as a duplicate-free list. -/
structure Blockchain where
  Chain : List Block
  CurrentTransactions : List Transaction
  Nodes : List String
deriving DecidableEq

/-! ## JSON serialization (encoding/json as used by `Hash`)

`time.Time` is stored already in its serialized string form, since the
code never inspects it.  Go marshals struct fields in declaration order. -/

/-- Go `encoding/json` escaping of one character (HTML escaping on). -/
def escChar (c : Char) : List Char :=
  if c = '"' then ['\\', '"']
  else if c = '\\' then ['\\', '\\']
  else if c = '\n' then ['\\', 'n']
  else if c = '\r' then ['\\', 'r']
  else if c = '\t' then ['\\', 't']
  else if c = '<' then "\\u003c".data
  else if c = '>' then "\\u003e".data
  else if c = '&' then "\\u0026".data
  else if c.toNat < 32 then
    ['\\', 'u', '0', '0', hexDigit (c.toNat / 16), hexDigit (c.toNat % 16)]
  else if c.toNat = 8232 then "\\u2028".data
  else if c.toNat = 8233 then "\\u2029".data
  else [c]

/-- A JSON string literal with Go escaping. -/
def jsonStr (s : String) : String :=
  ⟨'"' :: s.data.foldr (fun c acc => escChar c ++ acc) ['"']⟩

def jsonOfTx (t : Transaction) : String :=
  "\x7b\"sender\":" ++ jsonStr t.sender ++ ",\"recipient\":" ++ jsonStr t.recipient ++
    ",\"amount\":" ++ toString t.amount ++ "\x7d"

def jsonArr (xs : List String) : String := "[" ++ String.intercalate "," xs ++ "]"

/-- JSON of a block, fields in Go declaration order:
index, timestamp, transactions, proof, previous_hash. -/
def jsonOfBlock (b : Block) : String :=
  "\x7b\"index\":" ++ toString b.index ++ ",\"timestamp\":" ++ jsonStr b.timestamp ++
    ",\"transactions\":" ++ jsonArr (b.transactions.map jsonOfTx) ++
    ",\"proof\":" ++ toString b.proof ++
    ",\"previous_hash\":" ++ jsonStr b.previousHash ++ "\x7d"

/-- `Hash`: SHA-256 of the block's JSON, hex encoded.  `json.Marshal` cannot
fail on these types, so the Go error branch is unreachable and the model is
total. -/
def Hash (b : Block) : String := hexEncode (sha256 (utf8Bytes (jsonOfBlock b)))

/-! ## Ledger operations (blockchain.go) -/

/-- `LastBlock` returns `Chain[len(Chain)-1]`; `none` models the
index-out-of-range panic on an empty chain. -/
def Blockchain.LastBlock (bc : Blockchain) : Option Block := bc.Chain.getLast?

/-- `NewBlock`: seal the pending pool into a block and append it.  The
timestamp (`time.Now()`) is an ambient input, passed explicitly.  `none`
models the `LastBlock` panic when `previousHash` is empty and so is the
chain. -/
def Blockchain.NewBlock (bc : Blockchain) (proof : Int) (previousHash : String)
    (ts : String) : Option (Block × Blockchain) :=
  match (if previousHash.length > 0 then some previousHash else bc.LastBlock.map Hash) with
  | none => none
  | some prevHash =>
    let b : Block := ⟨(bc.Chain.length : Int) + 1, ts, bc.CurrentTransactions, proof, prevHash⟩
    some (b, { bc with CurrentTransactions := [], Chain := bc.Chain ++ [b] })

/-- `NewTransaction`: append to the pending pool, return `LastBlock().Index + 1`.
`none` models the `LastBlock` panic on an empty chain. -/
def Blockchain.NewTransaction (bc : Blockchain) (sender recipient : String)
    (amount : Int) : Option (Int × Blockchain) :=
  let bc' := { bc with
    CurrentTransactions := bc.CurrentTransactions ++ [Transaction.mk sender recipient amount] }
  match bc'.LastBlock with
  | none => none
  | some b => some (b.index + 1, bc')

/-- `InitBlockchain`: fresh state plus the genesis block `NewBlock(100, "1")`. -/
def InitBlockchain (ts : String) : Option Blockchain :=
  match Blockchain.NewBlock ⟨[], [], []⟩ 100 "1" ts with
  | none => none
  | some (_, bc) => some bc

/-- `RegisterNode`: set insertion of a peer address. -/
def Blockchain.RegisterNode (bc : Blockchain) (address : String) : Blockchain :=
  if address ∈ bc.Nodes then bc else { bc with Nodes := bc.Nodes ++ [address] }

/-! ## Proof of work (blockchain.go) -/

/-- `ValidProof`: SHA-256 of `fmt.Sprintf("%d%d", lastProof, proof)` must
have a lowercase hex digest starting with `"0000"` (Go `strings.HasPrefix`
is a prefix test on the string). -/
def ValidProof (lastProof proof : Int) : Bool :=
  let guess := toString lastProof ++ toString proof
  let guessHash := sha256 (utf8Bytes guess)
  let guessHashString := hexEncode guessHash
  List.isPrefixOf "0000".data guessHashString.data

/-- The `ProofOfWork` search loop (`proof := 0; for !ValidProof … proof += 1`),
with explicit fuel since the Go loop is unbounded. -/
def powLoop (lastProof : Int) : Nat → Int → Option Int
  | 0, _ => none
  | fuel + 1, proof =>
      if ValidProof lastProof proof then some proof else powLoop lastProof fuel (proof + 1)

/-- `ProofOfWork`, starting the search at 0. -/
def ProofOfWork (lastProof : Int) (fuel : Nat) : Option Int := powLoop lastProof fuel 0

/-! ## Chain validity (blockchain.go `ValidChain`) -/

/-- The `ValidChain` walk from `lastBlock` over the remaining blocks: each
step requires `block.PreviousHash == Hash(lastBlock)` and
`ValidProof(lastBlock.Proof, block.Proof)`. -/
def validLink (lastBlock : Block) : List Block → Bool
  | [] => true
  | block :: rest =>
      if block.previousHash != Hash lastBlock then false
      else if !(ValidProof lastBlock.proof block.proof) then false
      else validLink block rest

/-- `ValidChain` starts with `lastBlock := chain[0]`; `none` models the
index-out-of-range panic on an empty candidate (Go's `Hash` error branch
is unreachable, see `Hash`). -/
def ValidChain (chain : List Block) : Option Bool :=
  match chain with
  | [] => none
  | b :: rest => some (validLink b rest)

/-! ## Consensus (blockchain.go `ResolveConflicts`) -/

/-- Wire shape of a peer's `/chain` answer. -/
structure FullChainResponse where
  Chain : List Block
  Length : Int
deriving DecidableEq

/-- Outcome of `http.Get(node + "/chain")` followed by JSON decoding:
network failure, or a status code with an optional decoded body
(`none` body = decode error). -/
inductive FetchOutcome where
  | fail
  | resp (status : Nat) (body : Option FullChainResponse)
deriving DecidableEq

/-- Result of the peer loop: a `ValidChain` panic, an early error return,
or completion with the final `maxLength` and optional `newChain`. -/
inductive LoopOut where
  | panic
  | err
  | done (maxLength : Int) (newChain : Option (List Block))
deriving DecidableEq

/-- The `for node := range neighbours` loop of `ResolveConflicts`.  A non-200
status is skipped; a fetch or decode error returns immediately; `ValidChain`
runs on every decoded body before the length comparison. -/
def resolveLoop (fetch : String → FetchOutcome) :
    List String → Int → Option (List Block) → LoopOut
  | [], maxLength, newChain => .done maxLength newChain
  | node :: rest, maxLength, newChain =>
    match fetch node with
    | .fail => .err
    | .resp status body =>
      if status == 200 then
        match body with
        | none => .err
        | some b =>
          match ValidChain b.Chain with
          | none => .panic
          | some isValid =>
            if b.Length > maxLength && isValid then
              resolveLoop fetch rest b.Length (some b.Chain)
            else
              resolveLoop fetch rest maxLength newChain
      else resolveLoop fetch rest maxLength newChain

/-- Result of `ResolveConflicts`: panic, error return (receiver untouched),
or normal return with the `replaced` flag and the resulting state. -/
inductive ResolveResult where
  | panic
  | err (bc : Blockchain)
  | ok (replaced : Bool) (bc : Blockchain)
deriving DecidableEq

/-- `ResolveConflicts`.  `peers` is the (arbitrary) iteration order of
`bc.Nodes`; `maxLength` starts at `len(bc.Chain)`; the local chain is
assigned only after the loop finishes without error. -/
def Blockchain.ResolveConflicts (bc : Blockchain) (peers : List String)
    (fetch : String → FetchOutcome) : ResolveResult :=
  match resolveLoop fetch peers (bc.Chain.length : Int) none with
  | .panic => .panic
  | .err => .err bc
  | .done _ none => .ok false bc
  | .done _ (some newChain) => .ok true { bc with Chain := newChain }

/-! ## Mining (server `HandleMine`) and reachable states -/

/-- `HandleMine`: read the last block, run `ProofOfWork` on its proof, credit
the mining reward `("0", nodeIdentifier, 1)`, then `NewBlock(proof, "")`. -/
def mineOp (bc : Blockchain) (nodeIdentifier : String) (fuel : Nat)
    (ts : String) : Option (Block × Blockchain) :=
  match bc.LastBlock with
  | none => none
  | some lastBlock =>
    match ProofOfWork lastBlock.proof fuel with
    | none => none
    | some proof =>
      match bc.NewTransaction "0" nodeIdentifier 1 with
      | none => none
      | some (_, bc1) => bc1.NewBlock proof "" ts

/-- States reachable from `InitBlockchain` by new transactions, mining, and
(when `allowResolve` is true) successful `ResolveConflicts` calls. -/
inductive Reach : Bool → Blockchain → Prop where
  | init (a : Bool) (ts : String) (bc : Blockchain) :
      InitBlockchain ts = some bc → Reach a bc
  | tx (a : Bool) (bc : Blockchain) (s r : String) (amt i : Int) (bc' : Blockchain) :
      Reach a bc → bc.NewTransaction s r amt = some (i, bc') → Reach a bc'
  | mine (a : Bool) (bc : Blockchain) (nid : String) (fuel : Nat) (ts : String)
      (blk : Block) (bc' : Blockchain) :
      Reach a bc → mineOp bc nid fuel ts = some (blk, bc') → Reach a bc'
  | resolve (bc : Blockchain) (peers : List String) (fetch : String → FetchOutcome)
      (rep : Bool) (bc' : Blockchain) :
      Reach true bc → bc.ResolveConflicts peers fetch = .ok rep bc' → Reach true bc'

/-- The hash/proof linkage relation between adjacent blocks. -/
def linkR (prev curr : Block) : Prop :=
  curr.previousHash = Hash prev ∧ ValidProof prev.proof curr.proof = true

/-- The index-continuity relation between adjacent blocks. -/
def idxR (prev curr : Block) : Prop := curr.index = prev.index + 1

instance : DecidableRel linkR := fun p c =>
  inferInstanceAs (Decidable (c.previousHash = Hash p ∧ ValidProof p.proof c.proof = true))

instance : DecidableRel idxR := fun p c =>
  inferInstanceAs (Decidable (c.index = p.index + 1))

/-! ## Helper lemmas: proof of work -/

/-- The search loop only answers with a valid proof, and it is the least
one at or above the starting point. -/
lemma powLoop_spec (l : Int) : ∀ (fuel : Nat) (s p' : Int), powLoop l fuel s = some p' →
    ValidProof l p' = true ∧ s ≤ p' ∧ ∀ q : Int, s ≤ q → q < p' → ValidProof l q = false := by
  intro fuel
  induction fuel with
  | zero => intro s p' h; simp [powLoop] at h
  | succ n ih =>
    intro s p' h
    by_cases hv : ValidProof l s = true
    · simp [powLoop, hv] at h
      subst h
      exact ⟨hv, le_refl _, fun q hq hq' => absurd hq' (by omega)⟩
    · simp [powLoop, hv] at h
      obtain ⟨hvp, hle, hmin⟩ := ih (s + 1) p' h
      refine ⟨hvp, by omega, fun q hq hq' => ?_⟩
      rcases eq_or_lt_of_le hq with rfl | hlt
      · exact Bool.not_eq_true _ ▸ Bool.eq_false_iff.mpr (fun hc => hv hc)
      · exact hmin q (by omega) hq'

/-! ## Helper lemmas: chain validity -/

/-- The `ValidChain` walk succeeds exactly on hash/proof-linked chains. -/
lemma validLink_iff (l : List Block) : ∀ b : Block,
    (validLink b l = true ↔ List.Chain linkR b l) := by
  induction l with
  | nil => intro b; simp [validLink]
  | cons c rest ih =>
    intro b
    rw [List.chain_cons, ← ih c]
    by_cases h1 : c.previousHash = Hash b
    · by_cases h2 : ValidProof b.proof c.proof = true
      · simp [validLink, linkR, h1, h2]
      · simp [validLink, linkR, h1, h2]
    · simp [validLink, linkR, h1]

lemma ValidChain_nil : ValidChain [] = none := rfl

lemma ValidChain_cons (b : Block) (l : List Block) :
    ValidChain (b :: l) = some (validLink b l) := rfl

lemma ValidChain_isSome (c : List Block) (hc : c ≠ []) : (ValidChain c).isSome = true := by
  cases c with
  | nil => exact absurd rfl hc
  | cons b l => simp [ValidChain_cons]

/-- A candidate that passes `ValidChain` is nonempty and hash/proof linked. -/
lemma ValidChain_true (c : List Block) (h : ValidChain c = some true) :
    c ≠ [] ∧ List.Chain' linkR c := by
  cases c with
  | nil => simp [ValidChain_nil] at h
  | cons b l =>
    rw [ValidChain_cons, Option.some_inj] at h
    exact ⟨by simp, (validLink_iff l b).mp h⟩

lemma ValidChain_true_iff (b : Block) (l : List Block) :
    ValidChain (b :: l) = some true ↔ List.Chain' linkR (b :: l) := by
  rw [ValidChain_cons, Option.some_inj]
  exact validLink_iff l b

lemma ValidChain_false_iff (b : Block) (l : List Block) :
    ValidChain (b :: l) = some false ↔ ¬ List.Chain' linkR (b :: l) := by
  rw [ValidChain_cons, Option.some_inj, ← ValidChain_true_iff, ValidChain_cons,
    Option.some_inj]
  constructor
  · intro h hc; rw [h] at hc; cases hc
  · intro h; cases hv : validLink b l with
    | true => exact absurd hv h
    | false => rfl

/-! ## Helper lemmas: index continuity -/

/-- Executable "indices count up from `n`" predicate. -/
def idxFrom (n : Int) : List Block → Bool
  | [] => true
  | b :: rest => (b.index == n) && idxFrom (n + 1) rest

lemma idxFrom_append (x : Block) : ∀ (l : List Block) (n : Int),
    idxFrom n (l ++ [x]) = (idxFrom n l && (x.index == n + l.length)) := by
  intro l
  induction l with
  | nil => intro n; simp [idxFrom]
  | cons b rest ih =>
    intro n
    have harith : n + 1 + (rest.length : Int) = n + ((rest.length : Int) + 1) := by ring
    simp only [List.cons_append, idxFrom, List.append_eq, ih, List.length_cons,
      Bool.and_assoc]
    push_cast
    rw [harith]

lemma idxFrom_chain : ∀ (l : List Block) (b : Block) (n : Int),
    idxFrom n (b :: l) = true → List.Chain idxR b l := by
  intro l
  induction l with
  | nil => intro b n _; exact List.Chain.nil
  | cons c rest ih =>
    intro b n h
    simp only [idxFrom, Bool.and_eq_true, beq_iff_eq] at h
    obtain ⟨hb, hc, hr⟩ := h
    refine List.Chain.cons ?_ (ih c (n + 1) ?_)
    · unfold idxR; omega
    · simp [idxFrom, hc, hr]

/-! ## Helper lemmas: ledger operations -/

/-- The genesis state produced by `InitBlockchain`. -/
lemma InitBlockchain_eq (ts : String) :
    InitBlockchain ts = some ⟨[⟨1, ts, [], 100, "1"⟩], [], []⟩ := rfl

lemma NewTransaction_eq (bc : Blockchain) (s r : String) (amt : Int) (l : Block)
    (h : bc.Chain.getLast? = some l) :
    bc.NewTransaction s r amt = some (l.index + 1,
      { bc with CurrentTransactions := bc.CurrentTransactions ++ [⟨s, r, amt⟩] }) := by
  simp [Blockchain.NewTransaction, Blockchain.LastBlock, h]

lemma NewTransaction_shape (bc : Blockchain) (s r : String) (amt i : Int)
    (bc' : Blockchain) (h : bc.NewTransaction s r amt = some (i, bc')) :
    bc'.Chain = bc.Chain ∧ bc'.Nodes = bc.Nodes ∧
      bc'.CurrentTransactions = bc.CurrentTransactions ++ [⟨s, r, amt⟩] := by
  unfold Blockchain.NewTransaction Blockchain.LastBlock at h
  cases hl : bc.Chain.getLast? with
  | none => simp [hl] at h
  | some l =>
    simp only [hl, Option.some_inj] at h
    cases h
    exact ⟨rfl, rfl, rfl⟩

/-- `NewBlock` on a nonempty chain, empty `previousHash` argument. -/
lemma NewBlock_hash_eq (bc : Blockchain) (proof : Int) (ph ts : String) (l : Block)
    (hph : ¬ 0 < ph.length) (h : bc.Chain.getLast? = some l) :
    bc.NewBlock proof ph ts =
      some (Block.mk ((bc.Chain.length : Int) + 1) ts bc.CurrentTransactions proof (Hash l),
        Blockchain.mk
          (bc.Chain ++
            [Block.mk ((bc.Chain.length : Int) + 1) ts bc.CurrentTransactions proof (Hash l)])
          [] bc.Nodes) := by
  simp [Blockchain.NewBlock, Blockchain.LastBlock, h, hph]

/-- `NewBlock` with a nonempty `previousHash` argument. -/
lemma NewBlock_given_eq (bc : Blockchain) (proof : Int) (ph ts : String)
    (hph : 0 < ph.length) :
    bc.NewBlock proof ph ts =
      some (Block.mk ((bc.Chain.length : Int) + 1) ts bc.CurrentTransactions proof ph,
        Blockchain.mk
          (bc.Chain ++
            [Block.mk ((bc.Chain.length : Int) + 1) ts bc.CurrentTransactions proof ph])
          [] bc.Nodes) := by
  simp [Blockchain.NewBlock, hph]

/-! ## Helper lemmas: the consensus loop -/

/-- `maxLength` never decreases across the loop. -/
lemma resolveLoop_mono (fetch : String → FetchOutcome) : ∀ (peers : List String)
    (m : Int) (nc : Option (List Block)) (m' : Int) (nc' : Option (List Block)),
    resolveLoop fetch peers m nc = .done m' nc' → m ≤ m' := by
  intro peers
  induction peers with
  | nil => intro m nc m' nc' h; simp [resolveLoop] at h; omega
  | cons node rest ih =>
    intro m nc m' nc' h
    simp only [resolveLoop] at h
    cases hf : fetch node with
    | fail => rw [hf] at h; cases h
    | resp status body =>
      rw [hf] at h
      simp only at h
      by_cases hs : status == 200
      · rw [if_pos hs] at h
        cases body with
        | none => cases h
        | some b =>
          simp only at h
          cases hv : ValidChain b.Chain with
          | none => rw [hv] at h; cases h
          | some isValid =>
            rw [hv] at h
            simp only at h
            by_cases hc : (b.Length > m && isValid) = true
            · rw [if_pos hc] at h
              have := ih _ _ _ _ h
              simp only [Bool.and_eq_true, decide_eq_true_eq] at hc
              omega
            · rw [if_neg hc] at h
              exact ih _ _ _ _ h
      · rw [if_neg hs] at h
        exact ih _ _ _ _ h

/-- Once a winning chain is remembered it is never forgotten. -/
lemma resolveLoop_stays_some (fetch : String → FetchOutcome) : ∀ (peers : List String)
    (m : Int) (c : List Block) (m' : Int),
    resolveLoop fetch peers m (some c) ≠ .done m' none := by
  intro peers
  induction peers with
  | nil => intro m c m' h; simp [resolveLoop] at h
  | cons node rest ih =>
    intro m c m' h
    simp only [resolveLoop] at h
    cases hf : fetch node with
    | fail => rw [hf] at h; cases h
    | resp status body =>
      rw [hf] at h
      simp only at h
      by_cases hs : status == 200
      · rw [if_pos hs] at h
        cases body with
        | none => cases h
        | some b =>
          simp only at h
          cases hv : ValidChain b.Chain with
          | none => rw [hv] at h; cases h
          | some isValid =>
            rw [hv] at h
            simp only at h
            by_cases hc : (b.Length > m && isValid) = true
            · rw [if_pos hc] at h; exact ih _ _ _ h
            · rw [if_neg hc] at h; exact ih _ _ _ h
      · rw [if_neg hs] at h
        exact ih _ _ _ h

/-- Where an adopted chain comes from: it was already remembered, or some
peer answered 200 with a decodable, valid chain strictly longer than the
running `maxLength`. -/
lemma resolveLoop_done_some (fetch : String → FetchOutcome) : ∀ (peers : List String)
    (m : Int) (nc : Option (List Block)) (m' : Int) (c : List Block),
    resolveLoop fetch peers m nc = .done m' (some c) →
    nc = some c ∨ ∃ p ∈ peers, ∃ body : FullChainResponse,
      fetch p = .resp 200 (some body) ∧ ValidChain body.Chain = some true ∧
      m < body.Length ∧ body.Chain = c := by
  intro peers
  induction peers with
  | nil =>
    intro m nc m' c h
    simp only [resolveLoop, LoopOut.done.injEq] at h
    exact Or.inl h.2
  | cons node rest ih =>
    intro m nc m' c h
    simp only [resolveLoop] at h
    cases hf : fetch node with
    | fail => rw [hf] at h; cases h
    | resp status body =>
      rw [hf] at h
      simp only at h
      by_cases hs : status == 200
      · rw [if_pos hs] at h
        cases body with
        | none => cases h
        | some b =>
          simp only at h
          cases hv : ValidChain b.Chain with
          | none => rw [hv] at h; cases h
          | some isValid =>
            rw [hv] at h
            simp only at h
            by_cases hc : (b.Length > m && isValid) = true
            · rw [if_pos hc] at h
              simp only [Bool.and_eq_true, decide_eq_true_eq] at hc
              have hst : status = 200 := by simpa using hs
              rcases ih _ _ _ _ h with hcase | ⟨p, hp, body', hb', hvb', hlt', hcb'⟩
              · refine Or.inr ⟨node, by simp, b, ?_, ?_, ?_, ?_⟩
                · rw [hf, hst]
                · rw [hv, hc.2]
                · exact hc.1
                · simpa using hcase
              · exact Or.inr ⟨p, by simp [hp], body', hb', hvb', by omega, hcb'⟩
            · rw [if_neg hc] at h
              rcases ih _ _ _ _ h with hcase | ⟨p, hp, body', hb', hvb', hlt', hcb'⟩
              · exact Or.inl hcase
              · exact Or.inr ⟨p, by simp [hp], body', hb', hvb', hlt', hcb'⟩
      · rw [if_neg hs] at h
        rcases ih _ _ _ _ h with hcase | ⟨p, hp, body', hb', hvb', hlt', hcb'⟩
        · exact Or.inl hcase
        · exact Or.inr ⟨p, by simp [hp], body', hb', hvb', hlt', hcb'⟩

/-- If the loop finishes without remembering a chain, no peer offered a
valid chain longer than the starting `maxLength`. -/
lemma resolveLoop_done_none (fetch : String → FetchOutcome) : ∀ (peers : List String)
    (m m' : Int), resolveLoop fetch peers m none = .done m' none →
    ∀ p ∈ peers, ∀ body : FullChainResponse, fetch p = .resp 200 (some body) →
      ValidChain body.Chain = some true → body.Length ≤ m := by
  intro peers
  induction peers with
  | nil => intro m m' _ p hp; simp at hp
  | cons node rest ih =>
    intro m m' h p hp body hb hvb
    simp only [resolveLoop] at h
    cases hf : fetch node with
    | fail => rw [hf] at h; cases h
    | resp status body0 =>
      rw [hf] at h
      simp only at h
      by_cases hs : status == 200
      · rw [if_pos hs] at h
        cases body0 with
        | none =>
          cases h
        | some b =>
          simp only at h
          cases hv : ValidChain b.Chain with
          | none => rw [hv] at h; cases h
          | some isValid =>
            rw [hv] at h
            simp only at h
            by_cases hc : (b.Length > m && isValid) = true
            · rw [if_pos hc] at h
              exact absurd h (resolveLoop_stays_some fetch rest _ _ _)
            · rw [if_neg hc] at h
              rcases List.mem_cons.mp hp with rfl | hprest
              · have hst : status = 200 := eq_of_beq hs
                rw [hf, hst] at hb
                cases hb
                rw [hv] at hvb
                cases hvb
                simp only [Bool.and_eq_true, decide_eq_true_eq, not_and] at hc
                by_cases hlen : body.Length > m
                · exact absurd trivial (hc hlen)
                · omega
              · exact ih _ _ h p hprest body hb hvb
      · rw [if_neg hs] at h
        rcases List.mem_cons.mp hp with rfl | hprest
        · rw [hf] at hb
          cases hb
          exact absurd (by simp : (200 == 200) = true) hs
        · exact ih _ _ h p hprest body hb hvb

/-! ## Helper lemmas: ResolveConflicts outcomes -/

/-- The error return leaves the receiver untouched. -/
lemma resolve_err_eq (bc : Blockchain) (peers : List String)
    (fetch : String → FetchOutcome) (s : Blockchain)
    (h : bc.ResolveConflicts peers fetch = .err s) : s = bc := by
  unfold Blockchain.ResolveConflicts at h
  cases hr : resolveLoop fetch peers (bc.Chain.length : Int) none with
  | panic => rw [hr] at h; cases h
  | err => rw [hr] at h; cases h; rfl
  | done m nc =>
    rw [hr] at h
    cases nc with
    | none => cases h
    | some c => cases h

/-- A `replaced = true` return: the adopted chain came from a peer that
answered 200 with a decodable chain that is valid and strictly longer than
the local chain; pool and nodes are untouched. -/
lemma resolve_ok_true_src (bc : Blockchain) (peers : List String)
    (fetch : String → FetchOutcome) (bc' : Blockchain)
    (h : bc.ResolveConflicts peers fetch = .ok true bc') :
    ∃ p ∈ peers, ∃ body : FullChainResponse,
      fetch p = .resp 200 (some body) ∧ ValidChain body.Chain = some true ∧
      (bc.Chain.length : Int) < body.Length ∧ bc'.Chain = body.Chain ∧
      bc'.CurrentTransactions = bc.CurrentTransactions ∧ bc'.Nodes = bc.Nodes := by
  unfold Blockchain.ResolveConflicts at h
  cases hr : resolveLoop fetch peers (bc.Chain.length : Int) none with
  | panic => rw [hr] at h; cases h
  | err => rw [hr] at h; cases h
  | done m nc =>
    rw [hr] at h
    cases nc with
    | none => cases h
    | some c =>
      cases h
      rcases resolveLoop_done_some fetch peers _ _ _ _ hr with hnc | ⟨p, hp, body, hb, hvb, hlt, hcb⟩
      · cases hnc
      · exact ⟨p, hp, body, hb, hvb, hlt, by simp [hcb], rfl, rfl⟩

/-- A `replaced = false` return: the state is unchanged and no peer offered
a valid chain longer than the local one. -/
lemma resolve_ok_false_src (bc : Blockchain) (peers : List String)
    (fetch : String → FetchOutcome) (bc' : Blockchain)
    (h : bc.ResolveConflicts peers fetch = .ok false bc') :
    bc' = bc ∧ ∀ p ∈ peers, ∀ body : FullChainResponse,
      fetch p = .resp 200 (some body) → ValidChain body.Chain = some true →
      body.Length ≤ (bc.Chain.length : Int) := by
  unfold Blockchain.ResolveConflicts at h
  cases hr : resolveLoop fetch peers (bc.Chain.length : Int) none with
  | panic => rw [hr] at h; cases h
  | err => rw [hr] at h; cases h
  | done m nc =>
    rw [hr] at h
    cases nc with
    | none => cases h; exact ⟨rfl, resolveLoop_done_none fetch peers _ _ hr⟩
    | some c => cases h

/-! ## Helper lemmas: the reachable-state invariant -/

/-- Every reachable chain is nonempty and hash/proof linked; without
`ResolveConflicts` steps the indices also count up from 1. -/
lemma reach_inv (a : Bool) (bc : Blockchain) (h : Reach a bc) :
    bc.Chain ≠ [] ∧ List.Chain' linkR bc.Chain ∧
      (a = false → idxFrom 1 bc.Chain = true) := by
  induction h with
  | init a ts bc h0 =>
    rw [InitBlockchain_eq] at h0
    cases h0
    refine ⟨by simp, List.chain'_singleton _, fun _ => by simp [idxFrom]⟩
  | tx a bc s r amt i bc' hr htx ih =>
    obtain ⟨hch, _, _⟩ := NewTransaction_shape bc s r amt i bc' htx
    rw [hch]
    exact ih
  | mine a bc nid fuel ts blk bc' hr hm ih =>
    unfold mineOp at hm
    cases hlast : bc.LastBlock with
    | none => rw [hlast] at hm; cases hm
    | some last =>
      rw [hlast] at hm
      simp only at hm
      cases hpow : ProofOfWork last.proof fuel with
      | none => rw [hpow] at hm; cases hm
      | some prf =>
        rw [hpow] at hm
        simp only at hm
        cases htx : bc.NewTransaction "0" nid 1 with
        | none => rw [htx] at hm; cases hm
        | some pair =>
          rw [htx] at hm
          obtain ⟨idx, bc1⟩ := pair
          simp only at hm
          obtain ⟨hch1, hnod1, hpool1⟩ := NewTransaction_shape bc "0" nid 1 idx bc1 htx
          have hlast1 : bc1.Chain.getLast? = some last := by rw [hch1]; exact hlast
          rw [NewBlock_hash_eq bc1 prf "" ts last (by decide) hlast1] at hm
          cases hm
          have hvp : ValidProof last.proof prf = true :=
            (powLoop_spec last.proof fuel 0 prf hpow).1
          refine ⟨by simp, ?_, fun hfa => ?_⟩
          · refine List.chain'_append.mpr ⟨by rw [hch1]; exact ih.2.1,
              List.chain'_singleton _, fun x hx y hy => ?_⟩
            have hlast' : bc.Chain.getLast? = some last := hlast
            rw [hch1, hlast'] at hx
            simp only [Option.mem_def, Option.some_inj] at hx
            simp only [List.head?_cons, Option.mem_def, Option.some_inj] at hy
            subst hx
            subst hy
            exact ⟨rfl, hvp⟩
          · rw [idxFrom_append]
            have hidx := ih.2.2 hfa
            rw [hch1, hidx]
            simp only [Bool.true_and, beq_iff_eq]
            ring
  | resolve bc peers fetch rep bc' hr hres ih =>
    cases rep with
    | false =>
      obtain ⟨heq, _⟩ := resolve_ok_false_src bc peers fetch bc' hres
      subst heq
      exact ⟨ih.1, ih.2.1, fun hcon => by cases hcon⟩
    | true =>
      obtain ⟨p, hp, body, hb, hvb, hlt, hcb, _, _⟩ :=
        resolve_ok_true_src bc peers fetch bc' hres
      obtain ⟨hne, hlk⟩ := ValidChain_true body.Chain hvb
      rw [hcb]
      exact ⟨hne, hlk, fun hcon => by cases hcon⟩

/-! ## Concrete fixtures for witnesses and counterexamples -/

/-- Genesis block of a ledger initialized with timestamp string `"T"`. -/
def gT : Block := ⟨1, "T", [], 100, "1"⟩

/-- The ledger state right after `InitBlockchain "T"`. -/
def bcT : Blockchain := ⟨[gT], [], []⟩

/-- A peer whose fetch always fails at the network level. -/
def fetchFail : String → FetchOutcome := fun _ => .fail

/-- A peer that always answers 404 (body never decoded). -/
def fetch404 : String → FetchOutcome := fun _ => .resp 404 none

/-- A peer answering 200 with a (vacuously valid) one-block chain. -/
def fetchW : String → FetchOutcome := fun _ => .resp 200 (some ⟨[gT], 1⟩)

/-- A peer answering 200 with an empty chain. -/
def fetchEmpty : String → FetchOutcome := fun _ => .resp 200 (some ⟨[], 9⟩)

/-! ## Claim theorems -/

/-- C5: whenever the `ProofOfWork` search loop (started at 0, stepping by 1)
answers, the answer is a valid proof and the smallest non-negative integer
that is one; in particular `valid_proof(p, proof_of_work(p))` holds.  The
unbounded Go loop is modelled with fuel, so the statement is conditional on
the search finishing. -/
theorem proofOfWork_minimal (l : Int) (fuel : Nat) (p' : Int)
    (h : ProofOfWork l fuel = some p') :
    ValidProof l p' = true ∧ 0 ≤ p' ∧
      ∀ q : Int, 0 ≤ q → q < p' → ValidProof l q = false :=
  powLoop_spec l fuel 0 p' h

/-- C5 witness: for `last_proof = 8848` the search finishes at 4. -/
theorem proofOfWork_minimal_witness :
    ProofOfWork 8848 6 = some 4 ∧
      (ValidProof 8848 4 = true ∧ 0 ≤ (4 : Int) ∧
        ∀ q : Int, 0 ≤ q → q < 4 → ValidProof 8848 q = false) := by
  have h : ProofOfWork 8848 6 = some 4 := by set_option maxRecDepth 40000 in decide
  exact ⟨h, proofOfWork_minimal 8848 6 4 h⟩

/-- C7: on a nonempty chain, `NewBlock` appends a block with
`index = len(chain)+1`, the given proof, the supplied `previous_hash` if
nonempty (otherwise the hash of the last block), and the pending pool as its
transactions; afterwards the pool is empty and the block is returned. -/
theorem newBlock_spec (bc : Blockchain) (proof : Int) (ph ts : String) (l : Block)
    (h : bc.Chain.getLast? = some l) :
    ∃ b bc', bc.NewBlock proof ph ts = some (b, bc') ∧
      b.index = (bc.Chain.length : Int) + 1 ∧ b.proof = proof ∧
      b.previousHash = (if 0 < ph.length then ph else Hash l) ∧
      b.transactions = bc.CurrentTransactions ∧ b.timestamp = ts ∧
      bc'.CurrentTransactions = [] ∧ bc'.Chain = bc.Chain ++ [b] ∧
      bc'.Nodes = bc.Nodes := by
  by_cases hph : 0 < ph.length
  · rw [NewBlock_given_eq bc proof ph ts hph]
    exact ⟨_, _, rfl, rfl, rfl, by rw [if_pos hph], rfl, rfl, rfl, rfl, rfl⟩
  · rw [NewBlock_hash_eq bc proof ph ts l hph h]
    exact ⟨_, _, rfl, rfl, rfl, by rw [if_neg hph], rfl, rfl, rfl, rfl, rfl⟩

/-- C7 witness at the genesis ledger with a supplied previous hash. -/
theorem newBlock_spec_witness :
    bcT.Chain.getLast? = some gT ∧
      (∃ b bc', bcT.NewBlock 7 "x" "U" = some (b, bc') ∧
        b.index = (bcT.Chain.length : Int) + 1 ∧ b.proof = 7 ∧
        b.previousHash = (if 0 < "x".length then "x" else Hash gT) ∧
        b.transactions = bcT.CurrentTransactions ∧ b.timestamp = "U" ∧
        bc'.CurrentTransactions = [] ∧ bc'.Chain = bcT.Chain ++ [b] ∧
        bc'.Nodes = bcT.Nodes) :=
  ⟨rfl, newBlock_spec bcT 7 "x" "U" gT rfl⟩

/-- C8: on a nonempty chain, `NewTransaction` appends exactly the given
transaction at the end of the pending pool (chain and nodes untouched) and
returns `last_block().index + 1`. -/
theorem newTransaction_spec (bc : Blockchain) (s r : String) (amt : Int) (l : Block)
    (h : bc.Chain.getLast? = some l) :
    ∃ i bc', bc.NewTransaction s r amt = some (i, bc') ∧ i = l.index + 1 ∧
      bc'.CurrentTransactions = bc.CurrentTransactions ++ [⟨s, r, amt⟩] ∧
      bc'.Chain = bc.Chain ∧ bc'.Nodes = bc.Nodes := by
  rw [NewTransaction_eq bc s r amt l h]
  exact ⟨_, _, rfl, rfl, rfl, rfl, rfl⟩

/-- C8 witness at the genesis ledger. -/
theorem newTransaction_spec_witness :
    bcT.Chain.getLast? = some gT ∧
      (∃ i bc', bcT.NewTransaction "a" "b" 5 = some (i, bc') ∧ i = gT.index + 1 ∧
        bc'.CurrentTransactions = bcT.CurrentTransactions ++ [⟨"a", "b", 5⟩] ∧
        bc'.Chain = bcT.Chain ∧ bc'.Nodes = bcT.Nodes) :=
  ⟨rfl, newTransaction_spec bcT "a" "b" 5 gT rfl⟩

/-- C1: a normal `ResolveConflicts` return reports `replaced = true` exactly
when some peer answered 200 with a decodable chain that passes `ValidChain`
and whose reported length strictly exceeds the local chain's length; in that
case the adopted local chain is one such fetched chain (pool and node set
untouched), and on `replaced = false` the state is exactly unchanged. -/
theorem resolveConflicts_adopts_longest_valid (bc : Blockchain) (peers : List String)
    (fetch : String → FetchOutcome) (r : Bool) (bc' : Blockchain)
    (h : bc.ResolveConflicts peers fetch = .ok r bc') :
    (r = true ↔ ∃ p ∈ peers, ∃ body : FullChainResponse,
        fetch p = .resp 200 (some body) ∧ ValidChain body.Chain = some true ∧
        (bc.Chain.length : Int) < body.Length) ∧
    (r = true → ∃ p ∈ peers, ∃ body : FullChainResponse,
        fetch p = .resp 200 (some body) ∧ ValidChain body.Chain = some true ∧
        (bc.Chain.length : Int) < body.Length ∧ bc'.Chain = body.Chain ∧
        bc'.CurrentTransactions = bc.CurrentTransactions ∧ bc'.Nodes = bc.Nodes) ∧
    (r = false → bc' = bc) := by
  cases r with
  | true =>
    obtain ⟨p, hp, body, h1, h2, h3, h4, h5, h6⟩ := resolve_ok_true_src bc peers fetch bc' h
    exact ⟨⟨fun _ => ⟨p, hp, body, h1, h2, h3⟩, fun _ => rfl⟩,
           fun _ => ⟨p, hp, body, h1, h2, h3, h4, h5, h6⟩,
           fun hcon => by cases hcon⟩
  | false =>
    obtain ⟨heq, hno⟩ := resolve_ok_false_src bc peers fetch bc' h
    refine ⟨Iff.intro (fun hcon => absurd hcon (by simp)) ?_,
      fun hcon => absurd hcon (by simp), fun _ => heq⟩
    rintro ⟨p, hp, body, h1, h2, h3⟩
    exact absurd (hno p hp body h1 h2) (by omega)

/-- C1 witness: one peer offering a longer valid chain is adopted. -/
theorem resolveConflicts_adopts_longest_valid_witness :
    (Blockchain.mk [] [] []).ResolveConflicts ["n"] fetchW =
        .ok true (Blockchain.mk [gT] [] []) ∧
    ((true = true ↔ ∃ p ∈ ["n"], ∃ body : FullChainResponse,
        fetchW p = .resp 200 (some body) ∧ ValidChain body.Chain = some true ∧
        ((Blockchain.mk [] [] []).Chain.length : Int) < body.Length) ∧
     (true = true → ∃ p ∈ ["n"], ∃ body : FullChainResponse,
        fetchW p = .resp 200 (some body) ∧ ValidChain body.Chain = some true ∧
        ((Blockchain.mk [] [] []).Chain.length : Int) < body.Length ∧
        (Blockchain.mk [gT] [] []).Chain = body.Chain ∧
        (Blockchain.mk [gT] [] []).CurrentTransactions =
          (Blockchain.mk [] [] []).CurrentTransactions ∧
        (Blockchain.mk [gT] [] []).Nodes = (Blockchain.mk [] [] []).Nodes) ∧
     (true = false → Blockchain.mk [gT] [] [] = Blockchain.mk [] [] [])) := by
  have h : (Blockchain.mk [] [] []).ResolveConflicts ["n"] fetchW =
      .ok true (Blockchain.mk [gT] [] []) := by decide
  exact ⟨h, resolveConflicts_adopts_longest_valid _ _ _ _ _ h⟩

/-- C10: when `ResolveConflicts` returns an error, the chain, the pending
pool and the node set are exactly as before the call; a normal return also
leaves pool and nodes untouched, and the chain itself when
`replaced = false`. -/
theorem resolveConflicts_atomic_on_error (bc : Blockchain) (peers : List String)
    (fetch : String → FetchOutcome) :
    (∀ s, bc.ResolveConflicts peers fetch = .err s →
      s.Chain = bc.Chain ∧ s.CurrentTransactions = bc.CurrentTransactions ∧
        s.Nodes = bc.Nodes) ∧
    (∀ r s, bc.ResolveConflicts peers fetch = .ok r s →
      s.CurrentTransactions = bc.CurrentTransactions ∧ s.Nodes = bc.Nodes ∧
        (r = false → s = bc)) := by
  constructor
  · intro s h
    rw [resolve_err_eq bc peers fetch s h]
    exact ⟨rfl, rfl, rfl⟩
  · intro r s h
    cases r with
    | true =>
      obtain ⟨p, hp, body, h1, h2, h3, h4, h5, h6⟩ := resolve_ok_true_src bc peers fetch s h
      exact ⟨h5, h6, fun hcon => by cases hcon⟩
    | false =>
      obtain ⟨heq, _⟩ := resolve_ok_false_src bc peers fetch s h
      subst heq
      exact ⟨rfl, rfl, fun _ => rfl⟩

/-- C10 witness: a failing fetch yields an error return with the state intact. -/
theorem resolveConflicts_atomic_on_error_witness :
    bcT.ResolveConflicts ["q"] fetchFail = .err bcT ∧
      (bcT.Chain = bcT.Chain ∧ bcT.CurrentTransactions = bcT.CurrentTransactions ∧
        bcT.Nodes = bcT.Nodes) :=
  ⟨rfl, (resolveConflicts_atomic_on_error bcT ["q"] fetchFail).1 bcT rfl⟩

/-- C9: `ValidChain` reads `chain[0]` unconditionally, so on an empty
candidate it panics (`none`) instead of returning a boolean; on any nonempty
candidate it returns a boolean; and `ResolveConflicts` feeds a fetched chain
to `ValidChain` without checking nonemptiness, so a peer answering 200 with
an empty chain makes the whole call panic. -/
theorem validChain_empty_panics :
    ValidChain ([] : List Block) = none ∧
    (∀ c : List Block, c ≠ [] → (ValidChain c).isSome = true) ∧
    (∀ (bc : Blockchain) (p : String) (rest : List String) (n : Int)
        (fetch : String → FetchOutcome),
        fetch p = .resp 200 (some ⟨[], n⟩) →
        bc.ResolveConflicts (p :: rest) fetch = .panic) := by
  refine ⟨rfl, ValidChain_isSome, ?_⟩
  intro bc p rest n fetch hf
  unfold Blockchain.ResolveConflicts
  simp only [resolveLoop, hf]
  rfl

/-- C9 witness: a concrete 200-with-empty-chain peer panics the consensus
round on the genesis ledger. -/
theorem validChain_empty_panics_witness :
    (([gT] : List Block) ≠ [] ∧ (ValidChain [gT]).isSome = true) ∧
    (fetchEmpty "p" = .resp 200 (some ⟨[], 9⟩) ∧
      bcT.ResolveConflicts ["p"] fetchEmpty = .panic) :=
  ⟨⟨by simp, validChain_empty_panics.2.1 [gT] (by simp)⟩,
   ⟨rfl, validChain_empty_panics.2.2 bcT "p" [] 9 fetchEmpty rfl⟩⟩

/-- C3 counterexample: a registered peer that answers 404 (a non-200
response) does not make `ResolveConflicts` return an error — the peer is
silently skipped and the call returns `replaced = false` normally,
contradicting the claim that a non-200 response aborts the round. -/
theorem non200_not_error :
    fetch404 "p" = .resp 404 none ∧ (404 : Nat) ≠ 200 ∧
      bcT.ResolveConflicts ["p"] fetch404 = .ok false bcT :=
  ⟨rfl, by decide, rfl⟩

/-- C3 (amended): a network-level fetch failure aborts the round immediately
with an error (no retry, no partial tolerance), while a non-200 response is
merely skipped: the round continues with the remaining peers. -/
theorem resolve_fetch_error_aborts :
    (∀ (bc : Blockchain) (p : String) (rest : List String)
        (fetch : String → FetchOutcome), fetch p = .fail →
        bc.ResolveConflicts (p :: rest) fetch = .err bc) ∧
    (∀ (bc : Blockchain) (p : String) (rest : List String)
        (fetch : String → FetchOutcome) (status : Nat)
        (body : Option FullChainResponse), fetch p = .resp status body →
        status ≠ 200 →
        bc.ResolveConflicts (p :: rest) fetch = bc.ResolveConflicts rest fetch) := by
  constructor
  · intro bc p rest fetch hf
    unfold Blockchain.ResolveConflicts
    simp only [resolveLoop, hf]
  · intro bc p rest fetch status body hf hs
    unfold Blockchain.ResolveConflicts
    simp only [resolveLoop, hf]
    have hb : (status == 200) = false := by simp [hs]
    rw [hb]
    simp

/-- C3 amended witness: one failing peer errors the round; one 404 peer is
skipped, leaving the round equal to the round over the remaining peers. -/
theorem resolve_fetch_error_aborts_witness :
    (fetchFail "q" = .fail ∧ bcT.ResolveConflicts ["q"] fetchFail = .err bcT) ∧
    (fetch404 "p" = .resp 404 none ∧ (404 : Nat) ≠ 200 ∧
      bcT.ResolveConflicts ["p"] fetch404 = bcT.ResolveConflicts [] fetch404) :=
  ⟨⟨rfl, resolve_fetch_error_aborts.1 bcT "q" [] fetchFail rfl⟩,
   ⟨rfl, by decide, resolve_fetch_error_aborts.2 bcT "p" [] fetch404 404 none rfl (by decide)⟩⟩

/-- First block of a forged-but-`ValidChain`-passing candidate whose indices
do not count up (both indices are 0). -/
def badA : Block := ⟨0, "T", [], 8848, "x"⟩

/-- Second forged block: hash-linked to `badA` (its `previousHash` is the
computed `Hash badA`) and proof-linked (`ValidProof 8848 4` holds), but its
index is 0 instead of `badA.index + 1`. -/
def badB : Block :=
  ⟨0, "T", [], 4, "53072920084d708f3d6fdcc79cb6f6359a968ce9e417a35f823f5cb0ad3ef2a6"⟩

/-- A peer offering the forged two-block chain with reported length 2. -/
def fetchBad : String → FetchOutcome := fun _ => .resp 200 (some ⟨[badA, badB], 2⟩)

/-- C2 counterexample: from the genesis ledger, one successful
`ResolveConflicts` against a peer whose chain passes `ValidChain` but has
non-consecutive indices reaches a state violating
`chain[i].index = chain[i-1].index + 1` — `ValidChain` never checks
indices, so the claimed invariant fails on reachable states. -/
theorem reachable_index_violation :
    Reach true (Blockchain.mk [badA, badB] [] []) ∧
      ¬ List.Chain' idxR (Blockchain.mk [badA, badB] [] []).Chain := by
  constructor
  · refine Reach.resolve bcT ["peer"] fetchBad true _
      (Reach.init true "T" bcT (InitBlockchain_eq "T")) ?_
    set_option maxRecDepth 100000 in decide
  · intro hch
    rw [List.chain'_cons] at hch
    exact absurd hch.1 (by decide)

/-- C2 (amended): every reachable state (under new_transaction, mining, and
successful resolve_conflicts) has a nonempty chain in which every adjacent
pair satisfies `previous_hash = hash(prev)` and `valid_proof`; the
index-continuity clause `chain[i].index = chain[i-1].index + 1` holds in
every state reachable without resolve_conflicts, but a successful
resolve_conflicts can install a valid chain with arbitrary indices. -/
theorem reach_chain_linked (a : Bool) (bc : Blockchain) (h : Reach a bc) :
    bc.Chain ≠ [] ∧ List.Chain' linkR bc.Chain ∧
      (a = false → List.Chain' idxR bc.Chain) := by
  obtain ⟨hne, hlk, hidx⟩ := reach_inv a bc h
  refine ⟨hne, hlk, fun hfa => ?_⟩
  cases hc : bc.Chain with
  | nil => trivial
  | cons b l =>
    have hi := hidx hfa
    rw [hc] at hi
    exact idxFrom_chain l b 1 hi

/-- C2 amended witness at the freshly initialized ledger. -/
theorem reach_chain_linked_witness :
    Reach false bcT ∧ (bcT.Chain ≠ [] ∧ List.Chain' linkR bcT.Chain ∧
      (false = false → List.Chain' idxR bcT.Chain)) :=
  ⟨Reach.init false "T" bcT (InitBlockchain_eq "T"),
   reach_chain_linked false bcT (Reach.init false "T" bcT (InitBlockchain_eq "T"))⟩

/-- `ValidChain` is `some false` exactly on nonempty non-linked candidates. -/
lemma ValidChain_false_iff' (c : List Block) (hc : c ≠ []) :
    ValidChain c = some false ↔ ¬ List.Chain' linkR c := by
  cases c with
  | nil => exact absurd rfl hc
  | cons b l => exact ValidChain_false_iff b l

/-- C4: on a nonempty candidate, the `ValidChain` walk answers true exactly
when every adjacent pair is hash- and proof-linked and false exactly when
some adjacent pair fails; consequently corrupting the `previous_hash` of any
non-genesis block of a linked chain to a different value makes it answer
false. -/
theorem validChain_walk_spec (b : Block) (l : List Block) :
    (ValidChain (b :: l) = some true ↔ List.Chain' linkR (b :: l)) ∧
    (ValidChain (b :: l) = some false ↔ ¬ List.Chain' linkR (b :: l)) ∧
    (∀ (i : Nat) (hi : i + 1 < (b :: l).length) (v : String),
      List.Chain' linkR (b :: l) →
      v ≠ ((b :: l).get ⟨i + 1, hi⟩).previousHash →
      ValidChain ((b :: l).set (i + 1)
        { (b :: l).get ⟨i + 1, hi⟩ with previousHash := v }) = some false) := by
  refine ⟨ValidChain_true_iff b l, ValidChain_false_iff b l, ?_⟩
  intro i hi v hlk hv
  have hne : (b :: l).set (i + 1) { (b :: l).get ⟨i + 1, hi⟩ with previousHash := v } ≠ [] := by
    intro hcon
    have := congrArg List.length hcon
    simp at this
  refine (ValidChain_false_iff' _ hne).mpr ?_
  intro hch
  simp only [List.length_cons] at hi
  have h2 := (List.chain'_iff_get.mp hch i (by
    simp only [List.length_set, List.length_cons]
    omega)).1
  have h3 := (List.chain'_iff_get.mp hlk i (by
    simp only [List.length_cons]
    omega)).1
  simp only [List.get_eq_getElem, List.getElem_set_self,
    List.getElem_set_of_ne (show i + 1 ≠ i from by omega)] at h2
  simp only [List.get_eq_getElem] at h3 hv
  exact hv (h2.trans h3.symm)

/-- A linked two-block chain used to witness C4: `wB.previousHash` is the
computed `Hash wA` and `ValidProof 8848 4` holds. -/
def wA : Block := ⟨1, "T", [], 8848, "1"⟩

def wB : Block :=
  ⟨2, "T", [], 4, "c32f34282983372aaae94db74f42eaa55acc6d77f250fbea118f636a3c1dcbbc"⟩

/-- C4 witness: the concrete linked chain `[wA, wB]` passes, and corrupting
the second block's `previous_hash` to `"zz"` makes `ValidChain` answer
false. -/
theorem validChain_walk_spec_witness :
    List.Chain' linkR [wA, wB] ∧ "zz" ≠ (([wA, wB] : List Block).get ⟨1, by simp⟩).previousHash ∧
      ValidChain (([wA, wB] : List Block).set 1
        { ([wA, wB] : List Block).get ⟨1, by simp⟩ with previousHash := "zz" }) = some false := by
  have hlk : List.Chain' linkR [wA, wB] := by
    refine List.chain'_cons.mpr ⟨?_, List.chain'_singleton _⟩
    exact show wB.previousHash = Hash wA ∧ ValidProof wA.proof wB.proof = true from
      ⟨by set_option maxRecDepth 100000 in decide,
       by set_option maxRecDepth 100000 in decide⟩
  exact ⟨hlk, by decide,
    (validChain_walk_spec wA [wB]).2.2 0 (by simp) "zz" hlk (by decide)⟩

/-- The SHA-256 digest starts with two bytes below 256. -/
lemma sha256_shape (m : List Nat) : ∃ d0 d1 rest, sha256 m = d0 :: d1 :: rest ∧
    d0 < 256 ∧ d1 < 256 := by
  refine ⟨_, _, _, rfl, Nat.mod_lt _ (by norm_num), Nat.mod_lt _ (by norm_num)⟩

/-- The hex string of a digest starts with `"0000"` exactly when its first
two bytes are zero. -/
lemma prefix0000_iff (d0 d1 : Nat) (rest : List Nat) (h0 : d0 < 256) (h1 : d1 < 256) :
    List.isPrefixOf "0000".data (hexChars (d0 :: d1 :: rest)) = true ↔
      (d0 = 0 ∧ d1 = 0) := by
  have hd : "0000".data = ['0', '0', '0', '0'] := rfl
  rw [hd]
  show List.isPrefixOf _ (hexDigit (d0 / 16) :: hexDigit (d0 % 16) ::
    hexDigit (d1 / 16) :: hexDigit (d1 % 16) :: hexChars rest) = true ↔ _
  simp only [List.isPrefixOf, Bool.and_eq_true]
  have hz : ∀ n, n < 16 → (('0' == hexDigit n) = true ↔ n = 0) := by decide
  rw [hz _ (by omega), hz _ (by omega), hz _ (by omega), hz _ (by omega)]
  constructor
  · rintro ⟨a, b, c, d, -⟩
    omega
  · rintro ⟨rfl, rfl⟩
    exact ⟨rfl, rfl, rfl, rfl, trivial⟩

/-- C6: `ValidProof` hashes the decimal concatenation of its two integers
and accepts exactly when the hex digest starts with four `'0'` characters,
equivalently when the top 16 bits (the first two bytes) of the digest are
zero. -/
theorem validProof_digest_spec (l p : Int) :
    ValidProof l p = true ↔
      (sha256 (utf8Bytes (toString l ++ toString p))).take 2 = [0, 0] := by
  obtain ⟨d0, d1, rest, hsh, h0, h1⟩ := sha256_shape (utf8Bytes (toString l ++ toString p))
  show List.isPrefixOf "0000".data
    (hexEncode (sha256 (utf8Bytes (toString l ++ toString p)))).data = true ↔ _
  have hdata : (hexEncode (sha256 (utf8Bytes (toString l ++ toString p)))).data =
      hexChars (sha256 (utf8Bytes (toString l ++ toString p))) := rfl
  rw [hdata, hsh, prefix0000_iff d0 d1 rest h0 h1]
  simp

end DVF
